import Mathlib

/-!
Verification of the tag-extraction engine of `tagextract.py` and
`tagextract_sojusnik.py`.  The Python code is shallowly embedded: each
regular expression used by the source is modelled as an executable
boolean matcher over `List Char`, the line-level classifiers and the
two boundary-search scans are translated as recursive functions, and
the `extractTag` pipelines are staged so that the merged line-index
list is a first-class value.  Indentation levels are rationals
(`spaces + 4*tabs` divided by the tab width 4), exactly as the source
computes them.
-/

/-- Character class of the source's `[ \t]` (used by `_ws_only_line_re`
and the heading/indent patterns). -/
def isWsC (c : Char) : Bool := c = ' ' || c = '\t'

/-- Python's `\s` class (space, tab, newline, carriage return, vertical
tab, form feed), used by `_tab_re`'s leading `\s+` and by the `(?=\S)`
lookahead of `_tag_re`. -/
def isPySpace (c : Char) : Bool :=
  c = ' ' || c = '\t' || c = '\n' || c = '\r' || c = '\x0b' || c = '\x0c'

/-- Python's `\w` class for `\b` word boundaries (ASCII letters, digits,
underscore). -/
def isWordC (c : Char) : Bool := c.isAlphanum || c = '_'

/-- The segment of `cs` from index `i` (inclusive) to `j` (exclusive). -/
def seg (cs : List Char) (i j : ℕ) : List Char := (cs.drop i).take (j - i)

/-- Does the second list start with the first one? -/
def listStartsWith : List Char → List Char → Bool
  | [], _ => true
  | _ :: _, [] => false
  | p :: ps, c :: cs => p = c && listStartsWith ps cs

/-- Model of the ATX alternative of `tagextract.py`'s markdown `_h_re`:
`^(\#{1,6})[ \t]*(.+?)[ \t]*(?<!\\)\#*\n+` applied with `re.match`.
`h` is the number of `#` consumed (backtracking makes this an
existential), `a` the end of the first whitespace run, `t` the end of
the header text (at least one non-newline character), `p` the position
of the `(?<!\\)` assertion after the second whitespace run, `q` the end
of the optional closing `#` run, which must be followed by a newline. -/
def atxMatchMd (cs : List Char) : Bool :=
  let n := cs.length
  (List.range' 1 6).any fun h =>
    decide (h ≤ n) && (seg cs 0 h).all (fun c => c = '#') &&
    ((List.range (n+1)).any fun a =>
      decide (h ≤ a) && (seg cs h a).all isWsC &&
      ((List.range (n+1)).any fun t =>
        decide (a < t) && decide (t ≤ n) && (seg cs a t).all (fun c => c ≠ '\n') &&
        ((List.range (n+1)).any fun p =>
          decide (t ≤ p) && (seg cs t p).all isWsC &&
          !(cs.getD (p-1) ' ' = '\\' : Bool) &&
          ((List.range (n+1)).any fun q =>
            decide (p ≤ q) && (seg cs p q).all (fun c => c = '#') &&
            decide (q < n) && decide (cs.getD q ' ' = '\n')))))

/-- Model of the Setext alternative of the markdown `_h_re`:
`^(.+)[ \t]*\n(=+|-+)[ \t]*\n+`.  `a` is the end of the header text,
`b` the position of the first newline (after a whitespace run), `c2`
the end of the nonempty underline run of `=` or `-`, `d` the position
of the second newline. -/
def setextMatchMd (cs : List Char) : Bool :=
  let n := cs.length
  (List.range (n+1)).any fun a =>
    decide (1 ≤ a) && decide (a ≤ n) && (seg cs 0 a).all (fun c => c ≠ '\n') &&
    ((List.range (n+1)).any fun b =>
      decide (a ≤ b) && (seg cs a b).all isWsC && decide (b < n) && decide (cs.getD b ' ' = '\n') &&
      ((List.range (n+2)).any fun c2 =>
        decide (b + 2 ≤ c2) && decide (c2 ≤ n) &&
        ((seg cs (b+1) c2).all (fun c => c = '=') || (seg cs (b+1) c2).all (fun c => c = '-')) &&
        ((List.range (n+1)).any fun d =>
          decide (c2 ≤ d) && (seg cs c2 d).all isWsC && decide (d < n) && decide (cs.getD d ' ' = '\n'))))

/-- Model of the zim `_h_re`:
`^(\={1,6})[ \t]*(.+?)[ \t]*\1\n+` — the closing `=` run must repeat
the opening one (backreference `\1`), followed by a newline. -/
def zimHeaderMatch (cs : List Char) : Bool :=
  let n := cs.length
  (List.range' 1 6).any fun h =>
    decide (h ≤ n) && (seg cs 0 h).all (fun c => c = '=') &&
    ((List.range (n+1)).any fun a =>
      decide (h ≤ a) && (seg cs h a).all isWsC &&
      ((List.range (n+1)).any fun t =>
        decide (a < t) && decide (t ≤ n) && (seg cs a t).all (fun c => c ≠ '\n') &&
        ((List.range (n+1)).any fun p =>
          decide (t ≤ p) && (seg cs t p).all isWsC &&
          decide (p + h < n) && (seg cs p (p+h)).all (fun c => c = '=') &&
          decide (cs.getD (p+h) ' ' = '\n'))))

/-- Model of the zim `_img_re`: `^(.*)\{\{(.+?)\}\}(.*)$` (with `re.M`,
`$` matches at end of string or before a newline). -/
def zimImgMatch (cs : List Char) : Bool :=
  let n := cs.length
  (List.range (n+1)).any fun i =>
    (seg cs 0 i).all (fun c => c ≠ '\n') && listStartsWith ['\x7b', '\x7b'] (cs.drop i) &&
    ((List.range (n+1)).any fun j =>
      decide (i + 3 ≤ j) && decide (j ≤ n) && (seg cs (i+2) j).all (fun c => c ≠ '\n') &&
      listStartsWith ['\x7d', '\x7d'] (cs.drop j) &&
      ((List.range (n+1)).any fun k =>
        decide (j + 2 ≤ k) && decide (k ≤ n) && (seg cs (j+2) k).all (fun c => c ≠ '\n') &&
        (decide (k = n) || decide (cs.getD k ' ' = '\n'))))

/-- Model of the markdown `_img_re`: `^(.*)!\[(.+?)\]\((.+?)\)`. -/
def mdImgMatch (cs : List Char) : Bool :=
  let n := cs.length
  (List.range (n+1)).any fun i =>
    (seg cs 0 i).all (fun c => c ≠ '\n') && listStartsWith ['!', '['] (cs.drop i) &&
    ((List.range (n+1)).any fun j =>
      decide (i + 3 ≤ j) && decide (j ≤ n) && (seg cs (i+2) j).all (fun c => c ≠ '\n') &&
      listStartsWith [']', '('] (cs.drop j) &&
      ((List.range (n+1)).any fun k =>
        decide (j + 3 ≤ k) && decide (k ≤ n) && (seg cs (j+2) k).all (fun c => c ≠ '\n') &&
        listStartsWith [')'] (cs.drop k)))

/-- The dialect selected at `TagFinder.__init__` time (`self.syntax`). -/
inductive Dialect
  | markdown
  | zim
deriving DecidableEq

/-- `TagFinder.isHeader`: `re.match` of the dialect's `_h_re` against a
single line. -/
def isHeader : Dialect → String → Bool
  | .markdown, s => setextMatchMd s.data || atxMatchMd s.data
  | .zim, s => zimHeaderMatch s.data

/-- `TagFinder.isImg`: `re.match` of the dialect's `_img_re`. -/
def isImg : Dialect → String → Bool
  | .markdown, s => mdImgMatch s.data
  | .zim, s => zimImgMatch s.data

/-- `TagFinder.isEmpty`: zero length, the bare line terminator, or a
match of `_ws_only_line_re` = `^[ \t]+$`. -/
def isEmptyLine (s : String) : Bool :=
  decide (s.data.length = 0) || decide (s = "\n") ||
  (let r := s.data.takeWhile isWsC
   decide (r ≠ []) && (decide (s.data.drop r.length = []) || decide (s.data.getD r.length ' ' = '\n')))

/-- The fixed `self.tab_width` configuration constant. -/
def tabWidth : ℕ := 4

/-- `TagFinder.space2tab`: if the line matches
`^(\s+)(\S.*)` the leading whitespace run is replaced by
`spaces + tab_width*tabs` spaces (dropping everything from the first
interior newline on, since `.` does not cross newlines) and the level is
that count divided by `tab_width`; otherwise the line is returned
unchanged with level `0`. -/
def space2tab (s : String) : String × ℚ :=
  let r := s.data.takeWhile isPySpace
  let rest := s.data.dropWhile isPySpace
  if r ≠ [] ∧ rest ≠ [] then
    let spclen := (r.filter (fun c => c = ' ')).length + tabWidth * (r.filter (fun c => c = '\t')).length
    (⟨List.replicate spclen ' ' ++ (rest.take 1 ++ (rest.drop 1).takeWhile (fun c => c ≠ '\n'))⟩,
     (spclen : ℚ) / (tabWidth : ℚ))
  else (s, 0)

/-- The indentation level of a line, as computed by `space2tab`. -/
def levelOf (s : String) : ℚ := (space2tab s).2

/-- Word-boundary test of `\b` at the junction between a consumed
character `prev` and the remaining input. -/
def boundaryB (prev : Char) (rest : List Char) : Bool :=
  match rest with
  | [] => isWordC prev
  | c :: _ => isWordC prev != isWordC c

/-- The lazy `(.+?)\b` part of `_tag_re`: extend the capture one
non-newline character at a time until the first word boundary. -/
def capAux : Char → List Char → List Char → ℕ → Option (List Char × List Char)
  | _, _, _, 0 => none
  | prev, racc, rest, fuel + 1 =>
    if boundaryB prev rest then some (racc.reverse, rest)
    else
      match rest with
      | [] => none
      | c :: r => if c = '\n' then none else capAux c (c :: racc) r fuel

/-- `re.findall` of `_tag_re` = `@(?=\S)(.+?)\b`: scan for `@` followed
by a non-space character, capture lazily up to the first word boundary,
and resume scanning after the match.  Captures do NOT include the `@`
sigil (group 1 only). -/
def findTagsAux : List Char → ℕ → List (List Char)
  | _, 0 => []
  | [], _ => []
  | '@' :: rest, fuel + 1 =>
    (match rest with
     | [] => []
     | c0 :: r0 =>
       if isPySpace c0 then findTagsAux rest fuel
       else
         match capAux c0 [c0] r0 (r0.length + 1) with
         | some (cap, rem) => cap :: findTagsAux rem fuel
         | none => findTagsAux rest fuel)
  | _ :: rest, fuel + 1 => findTagsAux rest fuel

/-- The tag tokens of a line in `tagextract.py` (canonical form without
the `@` sigil). -/
def findTagsMain (s : String) : List String :=
  (findTagsAux s.data (s.data.length + 1)).map (fun cs => ⟨cs⟩)

/-- `re.sub("\r\n|\r", "\n", text)`: left-to-right normalisation of
carriage returns. -/
def normalizeCR : List Char → List Char
  | '\r' :: '\n' :: r => '\n' :: normalizeCR r
  | '\r' :: r => '\n' :: normalizeCR r
  | c :: r => c :: normalizeCR r
  | [] => []

/-- `text.split('\n')` on the character list (Python semantics: an empty
text yields one empty part, a trailing separator yields a trailing
empty part). -/
def splitNl : List Char → List Char → List (List Char)
  | [], acc => [acc.reverse]
  | c :: r, acc => if c = '\n' then acc.reverse :: splitNl r [] else splitNl r (c :: acc)

/-- `lines = text.split('\n'); lines = [l + '\n' for l in lines]` after
carriage-return normalisation: the Document as an ordered list of lines,
each carrying a trailing newline. -/
def prepLines (text : String) : List String :=
  (splitNl (normalizeCR text.data) []).map (fun cs => ⟨cs ++ ['\n']⟩)

/-- The upward scan loop of `tagextract.py`'s `TagFinder.searchUp`,
iterating `ii` from `i0 - 1` down to `0` (the first argument is `ii+1`)
with the mutable `sameblock` flag threaded through.  Includes produce a
cons (matching `result_idx.append` in scan order), the `return`
statements produce `[i]` (heading, included) or `[]` (stops). -/
def searchUpFromMain (syn : Dialect) (lines : List String) (lvl : ℚ) : ℕ → Bool → List ℕ
  | 0, _ => []
  | i + 1, sb =>
    let l := lines.getD i ""
    let t := levelOf l
    if isEmptyLine l then i :: searchUpFromMain syn lines lvl i sb
    else if isImg syn l then i :: searchUpFromMain syn lines lvl i sb
    else if isHeader syn l then [i]
    else
      let sb' := if sb = true ∧ |t - lvl| > 1 then false else sb
      if t - lvl ≥ 1 ∧ sb' = false then []
      else if findTagsMain l ≠ [] then
        (if sb' = true then i :: searchUpFromMain syn lines lvl i sb' else [])
      else if lvl - t ≥ 2 then []
      else if lvl - t ≤ 1 ∨ lvl = 0 then i :: searchUpFromMain syn lines lvl i sb'
      else searchUpFromMain syn lines lvl i sb'

/-- `TagFinder.searchUp` of `tagextract.py`: starts from
`result_idx = [lineidx]` and scans upward.  (The `tag` argument is
accepted and ignored, as in the source.) -/
def searchUpMain (syn : Dialect) (lines : List String) (_tag : String) (lineidx : ℕ) (lvl : ℚ) : List ℕ :=
  lineidx :: searchUpFromMain syn lines lvl lineidx true

/-- The downward scan loop of `tagextract.py`'s `TagFinder.searchDown`:
`fuel` counts the remaining iterations of `ii` from `lineidx+1` to
`len(lines)-1`, `i` is the current index. -/
def searchDownFromMain (syn : Dialect) (lines : List String) (lvl : ℚ) : ℕ → ℕ → Bool → List ℕ
  | 0, _, _ => []
  | fuel + 1, i, sb =>
    let l := lines.getD i ""
    let t := levelOf l
    if isEmptyLine l then i :: searchDownFromMain syn lines lvl fuel (i+1) sb
    else if isImg syn l then i :: searchDownFromMain syn lines lvl fuel (i+1) sb
    else if isHeader syn l then []
    else
      let sb' := if sb = true ∧ |t - lvl| ≥ 1 then false else sb
      if lvl - t > 0 then []
      else if findTagsMain l ≠ [] ∧ sb' = true then searchDownFromMain syn lines lvl fuel (i+1) sb'
      else if t ≥ lvl then i :: searchDownFromMain syn lines lvl fuel (i+1) sb'
      else searchDownFromMain syn lines lvl fuel (i+1) sb'

/-- `TagFinder.searchDown` of `tagextract.py`. -/
def searchDownMain (syn : Dialect) (lines : List String) (_tag : String) (lineidx : ℕ) (lvl : ℚ) : List ℕ :=
  searchDownFromMain syn lines lvl (lines.length - (lineidx + 1)) (lineidx + 1) true

/-- Append an occurrence to a tag's list in the insertion-ordered
dictionary (Python dict semantics restricted to the operations the
source performs: membership test, append to an existing key's list,
insert a new key). -/
def addOcc (d : List (String × List (ℕ × ℚ))) (k : String) (o : ℕ × ℚ) :
    List (String × List (ℕ × ℚ)) :=
  if d.any (fun p => p.1 = k) then
    d.map (fun p => if p.1 = k then (p.1, p.2 ++ [o]) else p)
  else d ++ [(k, [o])]

/-- `TagFinder.findAllTags`, parameterised by the `space2tab` and
tag-finding functions so that it serves both variants: one pass over the
lines, recording `[lineidx, level]` for every tag token found on the
`space2tab`-transformed line. -/
def findAllTagsWith (s2t : String → String × ℚ) (ft : String → List String)
    (lines : List String) : List (String × List (ℕ × ℚ)) :=
  lines.enum.foldl
    (fun d p =>
      let tt := s2t p.2
      (ft tt.1).foldl (fun d k => addOcc d k (p.1, tt.2)) d)
    []

/-- `tagdict[tag]`-style lookup. -/
def dictLookup (d : List (String × List (ℕ × ℚ))) (k : String) : Option (List (ℕ × ℚ)) :=
  (d.find? (fun p => p.1 = k)).map (fun p => p.2)

/-- `TagFinder.findAllTags` of `tagextract.py` (keys are the sigil-less
group-1 captures of `_tag_re`). -/
def findAllTagsMain (lines : List String) : List (String × List (ℕ × ℚ)) :=
  findAllTagsWith space2tab findTagsMain lines

/-- The per-occurrence merge loop shared by both `extractTag`s: run the
upward scan, reverse it, run the downward scan, and extend the running
list unless the contribution is already a subset (`set(...).issubset`). -/
def mergeOccs (up down : ℕ → ℚ → List ℕ) (occs : List (ℕ × ℚ)) : List ℕ :=
  occs.foldl
    (fun acc o =>
      let above := (up o.1 o.2).reverse
      let below := down o.1 o.2
      let acc1 := if above.all (fun i => acc.contains i) then acc else acc ++ above
      if below.all (fun i => acc1.contains i) then acc1 else acc1 ++ below)
    []

/-- Outcome of a `tagextract.py` call: either a value or the uncaught
`KeyError` raised by the unchecked `tagdict[tag]` subscript. -/
inductive PyResult (α : Type)
  | ok (a : α)
  | keyError
deriving DecidableEq

/-- The value of a `PyResult`, with `[]` for the exception case. -/
def PyResult.okList : PyResult (List ℕ) → List ℕ
  | .ok l => l
  | .keyError => []

/-- `TagFinder.extractTag` of `tagextract.py`, staged up to the merged
line-index list `result_idx` (before the final `set(...)`).  There is no
tag-name normalisation and no membership check: a tag absent from the
index raises `KeyError`. -/
def extractTagIdxMain (syn : Dialect) (text tag : String) : PyResult (List ℕ) :=
  let lines := prepLines text
  let d := findAllTagsMain lines
  match dictLookup d tag with
  | none => .keyError
  | some occs =>
    .ok (mergeOccs (searchUpMain syn lines tag) (searchDownMain syn lines tag) occs)

/-- Insert into a sorted duplicate-free list. -/
def insertAsc (x : ℕ) : List ℕ → List ℕ
  | [] => [x]
  | y :: ys => if x < y then x :: y :: ys else if x = y then y :: ys else y :: insertAsc x ys

/-- The ascending duplicate-free enumeration of a list's elements
(used to model `sorted(set(result_idx))`). -/
def sortDedup (l : List ℕ) : List ℕ := l.foldr insertAsc []

/-- The lines selected by `tagextract.py`'s `extractTag`, listed in
document order.  The source computes `set(result_idx)` and joins
`lines[ii]` over the set's (unspecified, CPython hash-table) iteration
order with no sort; this definition exposes the selected set itself,
enumerated ascending. -/
def extractTagSelectedMain (syn : Dialect) (text tag : String) : PyResult (List String) :=
  match extractTagIdxMain syn text tag with
  | .ok idx => .ok ((sortDedup idx).map (fun i => (prepLines text).getD i ""))
  | .keyError => .keyError

/-- Width (in space-equivalents, tab = `tabWidth`) of a run of
whitespace characters. -/
def wsWidth : List Char → ℕ
  | [] => 0
  | c :: r => (if c = '\t' then tabWidth else 1) + wsWidth r

/-- The leading-whitespace width of a line (`[ \t]` run only). -/
def lineWidth (l : String) : ℕ := wsWidth (l.data.takeWhile isWsC)

/-- Minimum of a list of naturals, `none` when empty. -/
def minW : List ℕ → Option ℕ
  | [] => none
  | x :: xs =>
    some (match minW xs with
          | none => x
          | some m => Nat.min x m)

/-- The minimum leading-whitespace width over the non-blank lines of a
selection (the quantity the re-indentation step is specified to drive
to zero; the indentation level is this width divided by `tabWidth`). -/
def minNonBlankW (ls : List String) : Option ℕ :=
  minW ((ls.filter (fun l => !isEmptyLine l)).map lineWidth)

/-- Strip `m` units of leading whitespace from a line, preserving the
rest (tabs in the leading run are expanded to `tabWidth` spaces first). -/
def stripW (m : ℕ) (l : String) : String :=
  ⟨List.replicate (wsWidth (l.data.takeWhile isWsC) - m) ' ' ++ l.data.dropWhile isWsC⟩

/-- Modelled from the spec: `lib.textparse.TextParser.leftJust` (the
module `lib/textparse.py` is not in the sources).  Per §4.5 step 6:
compute the minimum indentation among the selected non-blank lines and
strip that many leading whitespace units from every selected line,
preserving relative depth. -/
def leftJustFn (ls : List String) : List String :=
  match minNonBlankW ls with
  | none => ls
  | some m => ls.map (stripW m)

/-- Modelled from the spec: `lib.textparse.TextParser.findTags`
(§4.1 find-tags): every `@` immediately followed by a word character
yields the sigil plus the longest following run of word characters;
canonical keys KEEP the sigil. -/
def findTagsTPAux : List Char → ℕ → List (List Char)
  | _, 0 => []
  | [], _ => []
  | '@' :: rest, fuel + 1 =>
    (match rest with
     | [] => []
     | c0 :: _ =>
       if isWordC c0 then
         let tok := rest.takeWhile isWordC
         ('@' :: tok) :: findTagsTPAux (rest.drop tok.length) fuel
       else findTagsTPAux rest fuel)
  | _ :: rest, fuel + 1 => findTagsTPAux rest fuel

/-- Modelled from the spec: sigil-keeping tag finder of the sojusnik
variant's `TextParser`. -/
def findTagsTP (s : String) : List String :=
  (findTagsTPAux s.data (s.data.length + 1)).map (fun cs => ⟨cs⟩)

/-- The `lib.textparse.TextParser` capability consumed by
`tagextract_sojusnik.py` (the module itself is not in the sources; the
concrete instance below is modelled from the spec). -/
structure TextParser where
  space2tab : String → String × ℚ
  findTags : String → List String
  isEmpty : String → Bool
  isHeader : String → Bool
  isImg : String → Bool
  leftJust : List String → List String

/-- Modelled from the spec: the `TextParser('zim')` instance built by
the sojusnik `TagFinder.__init__` (its `main` hardcodes the `'zim'`
dialect).  §4.1 specifies the same space-to-indent, blank, zim-heading
and zim-image classification as `tagextract.py`'s zim branch, so those
models are reused; `findTags` keeps the sigil and `leftJust` is the
block re-indenter, both spec-modelled. -/
def zimTP : TextParser :=
  { space2tab := space2tab
    findTags := findTagsTP
    isEmpty := isEmptyLine
    isHeader := fun s => zimHeaderMatch s.data
    isImg := fun s => zimImgMatch s.data
    leftJust := leftJustFn }

/-- The sojusnik `_checkbox_re` `\[[* x]\](.*)` (with `re.X`, the
whitespace inside the character class is significant): does the line
contain `[*]`, `[ ]` or `[x]` anywhere? -/
def hasCheckbox : List Char → Bool
  | '[' :: c :: ']' :: rest =>
    if c = '*' || c = ' ' || c = 'x' then true else hasCheckbox (c :: ']' :: rest)
  | _ :: rest => hasCheckbox rest
  | [] => false

/-- `linecp.replace(tt, u'')` for each found tag token, in order. -/
def replaceAllAux (pat : List Char) : List Char → ℕ → List Char
  | _, 0 => []
  | [], _ => []
  | c :: rest, fuel + 1 =>
    if pat ≠ [] ∧ listStartsWith pat (c :: rest) then
      replaceAllAux pat ((c :: rest).drop pat.length) fuel
    else c :: replaceAllAux pat rest fuel

/-- Remove every (left-to-right, non-overlapping) occurrence of each
token from the line, mirroring the chained `str.replace` calls. -/
def stripTags (l : String) (toks : List String) : String :=
  ⟨toks.foldl (fun cs t => replaceAllAux t.data cs (cs.length + 1)) l.data⟩

/-- The upward scan loop of the sojusnik `TagFinder.searchUp`
(flat/checkbox-scoped strategy), iterating `ii` from `lineidx` down to
`0` (the argument is `ii+1`): include checkbox lines, image lines, and
lines that still carry text after their tag tokens are stripped; include
and stop at a heading; stop without including at a blank line; skip
everything else. -/
def searchUpFromSoj (tp : TextParser) (lines : List String) (tag : String) : ℕ → List ℕ
  | 0 => []
  | i + 1 =>
    let l := lines.getD i ""
    if hasCheckbox l.data then i :: searchUpFromSoj tp lines tag i
    else if tp.isImg l then i :: searchUpFromSoj tp lines tag i
    else
      let tl := tp.findTags l
      if tl ≠ [] ∧ tag ∈ tl then
        (if !tp.isEmpty (stripTags l tl) then i :: searchUpFromSoj tp lines tag i
         else searchUpFromSoj tp lines tag i)
      else if tp.isHeader l then [i]
      else if tp.isEmpty l then []
      else searchUpFromSoj tp lines tag i

/-- The sojusnik `TagFinder.searchUp` (its loop starts at `lineidx`
itself; the starting line is not unconditionally included). -/
def searchUpSoj (tp : TextParser) (lines : List String) (tag : String) (lineidx : ℕ) (_lvl : ℚ) : List ℕ :=
  searchUpFromSoj tp lines tag (lineidx + 1)

/-- The downward scan loop of the sojusnik `TagFinder.searchDown` over
the (index, line) pairs after the occurrence: include a blank line and
stop immediately; include image lines and continue; stop excluding at a
heading; silently skip everything else. -/
def searchDownFromSoj (tp : TextParser) : List (ℕ × String) → List ℕ
  | [] => []
  | p :: rest =>
    if tp.isEmpty p.2 then [p.1]
    else if tp.isImg p.2 then p.1 :: searchDownFromSoj tp rest
    else if tp.isHeader p.2 then []
    else searchDownFromSoj tp rest

/-- The sojusnik `TagFinder.searchDown`. -/
def searchDownSoj (tp : TextParser) (lines : List String) (_tag : String) (lineidx : ℕ) (_lvl : ℚ) : List ℕ :=
  searchDownFromSoj tp (lines.enum.drop (lineidx + 1))

/-- The tag index built by the sojusnik `TagFinder.findAllTags` (same
loop as the main variant, but through the `TextParser`). -/
def tagIndexSoj (tp : TextParser) (text : String) : List (String × List (ℕ × ℚ)) :=
  findAllTagsWith tp.space2tab tp.findTags (prepLines text)

/-- The sojusnik tag-name normalisation: `if len(tp.findTags(tag)) == 0:
tag = '@%s' % tag`. -/
def normalizeTag (tp : TextParser) (tag : String) : String :=
  if tp.findTags tag = [] then "@" ++ tag else tag

/-- The sojusnik `TagFinder.extractTag`, staged up to the selected lines
after re-indentation (`error` models the not-found branch, which prints
the existing tag keys and returns `None`; the carried list is exactly
`tagdict.keys()`). -/
def extractTagLinesSoj (tp : TextParser) (text tag : String) : Except (List String) (List String) :=
  let lines := prepLines text
  let d := tagIndexSoj tp text
  let t := normalizeTag tp tag
  match dictLookup d t with
  | none => .error (d.map (fun p => p.1))
  | some occs =>
    .ok (tp.leftJust
      ((sortDedup (mergeOccs (searchUpSoj tp lines t) (searchDownSoj tp lines t) occs)).map
        (fun i => lines.getD i "")))

/-- The sojusnik `TagFinder.extractTag` down to the joined output text. -/
def extractTagSoj (tp : TextParser) (text tag : String) : Except (List String) String :=
  (extractTagLinesSoj tp text tag).map (fun ls => String.join ls)

/-- The instance state of the `tagextract.py` `TagFinder` (set by
`__init__`, never written afterwards). -/
structure TagFinderMain where
  dial : Dialect

/-- `extractTag` of `tagextract.py` as a state-passing operation: the
method reads `self` but never assigns to it, so the state is returned
unchanged. -/
def extractTagSMain (st : TagFinderMain) (text tag : String) :
    PyResult (List ℕ) × TagFinderMain :=
  (extractTagIdxMain st.dial text tag, st)

/-- The instance state of the sojusnik `TagFinder`. -/
structure TagFinderSoj where
  tp : TextParser

/-- The sojusnik `extractTag` as a state-passing operation (again, the
method never writes `self`). -/
def extractTagSSoj (st : TagFinderSoj) (text tag : String) :
    Except (List String) String × TagFinderSoj :=
  (extractTagSoj st.tp text tag, st)

/-!
Batteries marks the rational-number arithmetic operations
`@[irreducible]`; concrete evaluation of the embedded pipeline by
`decide`/`rfl` needs them to unfold.
-/
section RatEval

attribute [local semireducible] Rat.mul Rat.inv Rat.sub Rat.add

/-- The wiki-dialect scenario document of §8: heading, a level-0 tag
line, two level-1 sub lines, and a trailing level-0 unrelated line. -/
def scenarioText : String :=
  "=== Heading ===\n@proj top line\n    sub line one @sub\n    sub line two\nunrelated line"

/-- C2: extracting `proj` from the 5-line wiki scenario document with
the indentation-scoped strategy yields the merged index list
`[0, 1, 2, 3, 4]`; in particular the tag line (1), both indented sub
lines (2, 3) and the final `unrelated line` (4) are all included. -/
theorem scenario_extract_includes_unrelated :
    extractTagIdxMain .zim scenarioText "proj" = .ok [0, 1, 2, 3, 4] ∧
    1 ∈ (extractTagIdxMain .zim scenarioText "proj").okList ∧
    2 ∈ (extractTagIdxMain .zim scenarioText "proj").okList ∧
    3 ∈ (extractTagIdxMain .zim scenarioText "proj").okList ∧
    4 ∈ (extractTagIdxMain .zim scenarioText "proj").okList := by
  refine ⟨by decide, ?_, ?_, ?_, ?_⟩ <;> decide

/-- A zim document whose merged index set is `{1, 8, 9}`: the two `t`
occurrences (level 0 at line 1, level 2 at line 8) each contribute only
themselves plus, for the second one, the trailing blank line. -/
def gapText : String :=
  "        deep0\n@t x\n=== h ===\na\nb\nc\nd\ne\n        @t y\n"

/-- C5: at `gapText` the merged `result_idx` of `tagextract.py`'s
`extractTag` is `[1, 8, 9]`.  The source then computes
`set(result_idx)` and joins `lines[ii]` over the raw set with no
`sort()` call, so the output order is the hash-table iteration order
(CPython 2 iterates `{1, 8, 9}` as `8, 1, 9`), not ascending document
order; the sojusnik variant adds the missing `result_idx.sort()`. -/
theorem gap_merged_indices :
    extractTagIdxMain .zim gapText "t" = .ok [1, 8, 9] := by decide

/-- C1 counterexample: in `tagextract.py` a tag with no occurrence does
NOT produce a NotFound outcome — the unchecked `tagdict[tag]` subscript
raises `KeyError` (the document's only tag key is `a`). -/
theorem missing_tag_raises_keyerror :
    extractTagIdxMain .zim "x @a y" "b" = .keyError := by decide

/-- C7 counterexample: in `tagextract.py` canonical tag keys do NOT
include the sigil and no normalisation is applied: `extract(doc, "a")`
finds the occurrence of `@a` while `extract(doc, "@a")` raises
`KeyError`, so the two spellings do not address the same occurrences. -/
theorem sigil_lookup_disagrees :
    extractTagIdxMain .zim "x @a y" "a" = .ok [0] ∧
    extractTagIdxMain .zim "x @a y" "@a" = .keyError := by
  exact ⟨by decide, by decide⟩

/-- A document whose line 1 is a level-2 zim image/embed line directly
above a level-0 tag occurrence at line 2. -/
def imgDeepText : String :=
  "before\n        " ++ String.mk ['\x7b', '\x7b', 'a', '\x7d', '\x7d'] ++ "\n@t x"

/-- A document whose line 1 is blank, two levels above the level-2 tag
occurrence at line 2. -/
def blankGapText : String := "before\n\n        @t x"

/-- C3 counterexample: the upward scan does include lines two or more
levels away from the triggering occurrence.  In `imgDeepText` the
image line 1 (level 2, two levels DEEPER than the level-0 tag) is
included and the scan continues to line 0; in `blankGapText` the blank
line 1 (level 0, two levels SHALLOWER than the level-2 tag, the §4.3
step-7 bound) is included and the scan continues (line 0 is then
rejected by a stop, not line 1). -/
theorem searchup_level_bound_violated :
    (1 ∈ searchUpMain .zim (prepLines imgDeepText) "t" 2 0 ∧
      levelOf ((prepLines imgDeepText).getD 1 "") - 0 ≥ 2) ∧
    (1 ∈ searchUpMain .zim (prepLines blankGapText) "t" 2 2 ∧
      2 - levelOf ((prepLines blankGapText).getD 1 "") ≥ 2 ∧
      0 ∉ searchUpMain .zim (prepLines blankGapText) "t" 2 2) := by
  exact ⟨⟨by decide, by decide⟩, by decide, by decide, by decide⟩

/-- A line that is simultaneously a zim heading (`= ... =`) and a zim
image/embed line (it contains `{{a}}`). -/
def imgHeaderLine : String :=
  String.mk ['=', ' ', '\x7b', '\x7b', 'a', '\x7d', '\x7d', ' ', '=']

/-- A document with a plain line 0, the image-heading at line 1 and a
tag occurrence at line 2. -/
def imgHeaderText : String := "before\n" ++ imgHeaderLine ++ "\n@t x"

/-- C4 counterexample: headings are not absolute stops.  Line 1 of
`imgHeaderText` is classified a heading, yet the upward scan from the
occurrence at line 2 passes it (the image check precedes the heading
check and includes-and-continues) and also includes line 0, which lies
strictly beyond the nearest heading. -/
theorem heading_not_absolute_stop :
    isHeader .zim ((prepLines imgHeaderText).getD 1 "") = true ∧
    isImg .zim ((prepLines imgHeaderText).getD 1 "") = true ∧
    0 ∈ searchUpMain .zim (prepLines imgHeaderText) "t" 2 0 := by
  exact ⟨by decide, by decide, by decide⟩

/-- C6 counterexample: `tagextract.py` performs no re-indentation.  For
the single-line document `    @t x` the extraction selects exactly the
level-1 tag line, so the minimum indentation level among the non-blank
output lines is 1, not 0. -/
theorem no_left_justify_in_main :
    extractTagSelectedMain .zim "    @t x" "t" = .ok ["    @t x\n"] ∧
    levelOf "    @t x\n" = 1 ∧
    isEmptyLine "    @t x\n" = false := by
  exact ⟨by decide, by decide, by decide⟩

/-- C9 counterexample: during the scans `isHeader` classifies one line
at a time, and the Setext alternative of the markdown heading regex can
never match a single line (it needs an interior newline): the line
`Title` of a Setext pair `Title` / `=====` is NOT classified a heading,
even though the very same regex does match the two-line string. -/
theorem setext_line_not_classified :
    isHeader .markdown "Title\n" = false ∧
    isHeader .markdown "Title\n=====\n" = true := by
  exact ⟨by decide, by decide⟩

/-- C8: both `extractTag`s are deterministic and stateless.  The
methods never assign to `self` (the embedded operations return the
finder state unchanged), so a second run on the same unmodified text
with the same tag and dialect produces the identical result value,
character for character. -/
theorem extract_deterministic :
    ∀ (m : TagFinderMain) (sj : TagFinderSoj) (text tag : String),
      (extractTagSMain (extractTagSMain m text tag).2 text tag).1 =
        (extractTagSMain m text tag).1 ∧
      (extractTagSSoj (extractTagSSoj sj text tag).2 text tag).1 =
        (extractTagSSoj sj text tag).1 :=
  fun _ _ _ _ => ⟨rfl, rfl⟩

/-- The downward contribution of the flat/checkbox-scoped strategy as
the claim describes it: the image lines occurring before the first
cut line — a blank line, or a heading that is not itself already
classified blank or image (the source checks in that order) — followed
by that cut line itself when it is the blank one. -/
def flatDownDescribed (tp : TextParser) (ps : List (ℕ × String)) : List ℕ :=
  ((ps.takeWhile fun p => !(tp.isEmpty p.2 || (tp.isHeader p.2 && !tp.isImg p.2))).filter
      (fun p => tp.isImg p.2)).map Prod.fst ++
    (match (ps.dropWhile fun p => !(tp.isEmpty p.2 || (tp.isHeader p.2 && !tp.isImg p.2))).head? with
     | some p => if tp.isEmpty p.2 then [p.1] else []
     | none => [])

/-- The sojusnik downward scan loop computes exactly the described
contribution, for every classifier instance. -/
theorem searchDownFromSoj_eq_described (tp : TextParser) :
    ∀ ps, searchDownFromSoj tp ps = flatDownDescribed tp ps := by
  intro ps
  induction ps with
  | nil => rfl
  | cons p rest ih =>
    by_cases h1 : tp.isEmpty p.2
    · simp [searchDownFromSoj, flatDownDescribed, List.takeWhile_cons, List.dropWhile_cons, h1]
    · by_cases h2 : tp.isImg p.2
      · simp [searchDownFromSoj, flatDownDescribed, List.takeWhile_cons, List.dropWhile_cons,
          h1, h2] at ih ⊢
        exact ih
      · by_cases h3 : tp.isHeader p.2
        · simp [searchDownFromSoj, flatDownDescribed, List.takeWhile_cons, List.dropWhile_cons,
            h1, h2, h3]
        · simp [searchDownFromSoj, flatDownDescribed, List.takeWhile_cons, List.dropWhile_cons,
            h1, h2, h3] at ih ⊢
          exact ih

/-- C10: for every classifier instance and document, the flat
strategy's downward scan silently skips (while continuing past) every
line that is not blank, not an image and not a heading; it consists of
exactly the image lines up to the first blank line or heading, plus
that blank line itself — included and immediately terminating — when
the blank comes first. -/
theorem flatdown_scan_characterized :
    ∀ (tp : TextParser) (lines : List String) (tag : String) (lineidx : ℕ) (lvl : ℚ),
      searchDownSoj tp lines tag lineidx lvl =
        flatDownDescribed tp (lines.enum.drop (lineidx + 1)) :=
  fun tp lines _ lineidx _ => searchDownFromSoj_eq_described tp (lines.enum.drop (lineidx + 1))

/-- Helper for C3: any line included by the upward scan loop that is
not blank, not an image and not a heading satisfies the level window
`lvl - level < 2` (the §4.3 step-7 bound) and `level - lvl ≤ 1`. -/
lemma searchUpFromMain_level_window (syn : Dialect) (lines : List String) (lvl : ℚ) :
    ∀ (i0 : ℕ) (sb : Bool) (i : ℕ), i ∈ searchUpFromMain syn lines lvl i0 sb →
      isEmptyLine (lines.getD i "") = false →
      isImg syn (lines.getD i "") = false →
      isHeader syn (lines.getD i "") = false →
      lvl - levelOf (lines.getD i "") < 2 ∧ levelOf (lines.getD i "") - lvl ≤ 1 := by
  intro i0
  induction i0 with
  | zero =>
    intro sb i h
    simp [searchUpFromMain] at h
  | succ k ih =>
    intro sb i h he hi hh
    rw [searchUpFromMain] at h
    by_cases h1 : isEmptyLine (lines.getD k "") = true
    · rw [if_pos h1] at h
      rcases List.mem_cons.mp h with rfl | h'
      · rw [he] at h1; exact absurd h1 (by simp)
      · exact ih sb i h' he hi hh
    · rw [if_neg h1] at h
      by_cases h2 : isImg syn (lines.getD k "") = true
      · rw [if_pos h2] at h
        rcases List.mem_cons.mp h with rfl | h'
        · rw [hi] at h2; exact absurd h2 (by simp)
        · exact ih sb i h' he hi hh
      · rw [if_neg h2] at h
        by_cases h3 : isHeader syn (lines.getD k "") = true
        · rw [if_pos h3] at h
          rcases List.mem_singleton.mp h with rfl
          rw [hh] at h3; exact absurd h3 (by simp)
        · rw [if_neg h3] at h
          set t := levelOf (lines.getD k "") with ht
          set sb2 := if sb = true ∧ |t - lvl| > 1 then false else sb with hsb2
          by_cases h4 : t - lvl ≥ 1 ∧ sb2 = false
          · rw [if_pos h4] at h; simp at h
          · rw [if_neg h4] at h
            push_neg at h4
            have hsbfact : sb2 = true → |t - lvl| ≤ 1 := by
              intro hs
              rw [hsb2] at hs
              by_cases hc : sb = true ∧ |t - lvl| > 1
              · rw [if_pos hc] at hs; exact absurd hs (by simp)
              · push_neg at hc
                rw [if_neg (by push_neg; exact hc)] at hs
                exact hc hs
            by_cases h5 : findTagsMain (lines.getD k "") ≠ []
            · rw [if_pos h5] at h
              by_cases h6 : sb2 = true
              · rw [if_pos h6] at h
                rcases List.mem_cons.mp h with rfl | h'
                · have := abs_sub_le_iff.mp (hsbfact h6)
                  constructor <;> linarith [this.1, this.2]
                · exact ih sb2 i h' he hi hh
              · rw [if_neg h6] at h; simp at h
            · rw [if_neg h5] at h
              by_cases h7 : lvl - t ≥ 2
              · rw [if_pos h7] at h; simp at h
              · rw [if_neg h7] at h
                by_cases h8 : lvl - t ≤ 1 ∨ lvl = 0
                · rw [if_pos h8] at h
                  rcases List.mem_cons.mp h with rfl | h'
                  · push_neg at h7
                    constructor
                    · linarith
                    · by_cases h9 : sb2 = true
                      · have := abs_sub_le_iff.mp (hsbfact h9)
                        linarith [this.1]
                      · have hf : sb2 = false := by simpa using h9
                        have hlt : ¬(1 ≤ t - lvl) := fun hge => h4 hge hf
                        linarith [not_le.mp hlt]
                  · exact ih sb2 i h' he hi hh
                · rw [if_neg h8] at h
                  exact ih sb2 i h he hi hh

/-- C3 (amended): every line the upward scan adds, other than the
starting line itself, blank lines, image lines and the heading included
at a stop, lies in the level window of §4.3 steps 4-8: it is less than
2 levels shallower and at most 1 level deeper than the triggering
occurrence.  (Blank and image lines are included at any level before
the level logic runs, which is what the original claim missed.) -/
theorem searchup_level_window :
    ∀ (syn : Dialect) (lines : List String) (tag : String) (lineidx : ℕ) (lvl : ℚ) (i : ℕ),
      i ∈ searchUpMain syn lines tag lineidx lvl → i ≠ lineidx →
      isEmptyLine (lines.getD i "") = false →
      isImg syn (lines.getD i "") = false →
      isHeader syn (lines.getD i "") = false →
      lvl - levelOf (lines.getD i "") < 2 ∧ levelOf (lines.getD i "") - lvl ≤ 1 := by
  intro syn lines tag lineidx lvl i h hne he hi hh
  rw [searchUpMain] at h
  rcases List.mem_cons.mp h with rfl | h'
  · exact absurd rfl hne
  · exact searchUpFromMain_level_window syn lines lvl lineidx true i h' he hi hh

/-- Witness for C3's amended theorem at a concrete document. -/
theorem searchup_level_window_witness :
    0 ∈ searchUpMain .zim (prepLines "a\n@t x") "t" 1 0 ∧
    ((0 : ℚ) - levelOf ((prepLines "a\n@t x").getD 0 "") < 2 ∧
      levelOf ((prepLines "a\n@t x").getD 0 "") - 0 ≤ 1) :=
  ⟨by decide,
   searchup_level_window .zim (prepLines "a\n@t x") "t" 1 0 0 (by decide) (by decide)
     (by decide) (by decide) (by decide)⟩

/-- Helper for C4: anything the upward scan loop returns from indices
above a heading line that is not shadowed by the blank or image checks
stays at or above that heading. -/
lemma searchUpFromMain_mem_inv (syn : Dialect) (lines : List String) (lvl : ℚ) (k : ℕ) (sb : Bool) :
    ∀ i ∈ searchUpFromMain syn lines lvl (k + 1) sb,
      i = k ∨ ∃ sb2, i ∈ searchUpFromMain syn lines lvl k sb2 := by
  intro i h
  simp only [searchUpFromMain] at h
  split_ifs at h with h1 h2 h3 h4 h5 h6 h7 h8
  all_goals
    first
      | exact absurd h (List.not_mem_nil i)
      | (rcases List.mem_cons.mp h with rfl | hrec
         · exact Or.inl rfl
         · exact Or.inr ⟨_, hrec⟩)
      | (rcases List.mem_singleton.mp h with rfl; exact Or.inl rfl)
      | exact Or.inr ⟨_, h⟩

/-- Helper for C4 (downward direction): one step of the downward scan
loop contributes either the current index or recursion results. -/
lemma searchDownFromMain_mem_inv (syn : Dialect) (lines : List String) (lvl : ℚ) (f i0 : ℕ) (sb : Bool) :
    ∀ i ∈ searchDownFromMain syn lines lvl (f + 1) i0 sb,
      i = i0 ∨ ∃ sb2, i ∈ searchDownFromMain syn lines lvl f (i0 + 1) sb2 := by
  intro i h
  simp only [searchDownFromMain] at h
  split_ifs at h with h1 h2 h3 h4 h5 h6
  all_goals
    first
      | exact absurd h (List.not_mem_nil i)
      | (rcases List.mem_cons.mp h with rfl | hrec
         · exact Or.inl rfl
         · exact Or.inr ⟨_, hrec⟩)
      | exact Or.inr ⟨_, h⟩

/-- Helper for C4: the upward scan loop never descends past a heading
line that is neither blank nor an image. -/
lemma searchUpFromMain_heading_floor (syn : Dialect) (lines : List String) (lvl : ℚ) (j : ℕ)
    (hj : isHeader syn (lines.getD j "") = true)
    (hje : isEmptyLine (lines.getD j "") = false)
    (hji : isImg syn (lines.getD j "") = false) :
    ∀ (i0 : ℕ) (sb : Bool), j < i0 → ∀ i ∈ searchUpFromMain syn lines lvl i0 sb, j ≤ i := by
  intro i0
  induction i0 with
  | zero => intro sb hj0 i hi; omega
  | succ k ih =>
    intro sb hjk i h
    by_cases hkj : k = j
    · subst hkj
      rw [searchUpFromMain] at h
      split_ifs at h with h1 h2 h3
      · rw [hje] at h1; simp at h1
      · rw [hji] at h2; simp at h2
      all_goals first
        | (rcases List.mem_singleton.mp h with rfl; exact le_refl _)
        | exact absurd hj h3
    · have hjk2 : j < k := by omega
      rcases searchUpFromMain_mem_inv syn lines lvl k sb i h with rfl | ⟨sb2, h'⟩
      · omega
      · exact ih sb2 hjk2 i h'

/-- Helper for C4: the downward scan loop never climbs past a heading
line that is neither blank nor an image. -/
lemma searchDownFromMain_heading_ceil (syn : Dialect) (lines : List String) (lvl : ℚ) (j : ℕ)
    (hj : isHeader syn (lines.getD j "") = true)
    (hje : isEmptyLine (lines.getD j "") = false)
    (hji : isImg syn (lines.getD j "") = false) :
    ∀ (f i0 : ℕ) (sb : Bool), i0 ≤ j → ∀ i ∈ searchDownFromMain syn lines lvl f i0 sb, i < j := by
  intro f
  induction f with
  | zero => intro i0 sb hij i h; simp [searchDownFromMain] at h
  | succ f ih =>
    intro i0 sb hij i h
    by_cases hi0 : i0 = j
    · subst hi0
      rw [searchDownFromMain] at h
      split_ifs at h with h1 h2 h3
      · rw [hje] at h1; simp at h1
      · rw [hji] at h2; simp at h2
      all_goals first
        | exact absurd h (List.not_mem_nil i)
        | exact absurd hj h3
    · have hlt : i0 < j := lt_of_le_of_ne hij hi0
      rcases searchDownFromMain_mem_inv syn lines lvl f i0 sb i h with rfl | ⟨sb2, h'⟩
      · exact hlt
      · exact ih (i0 + 1) sb2 (by omega) i h'

/-- C4 (amended): a heading line that is not also classified blank or
image/embed (the blank and image checks precede the heading check and
include-and-continue) bounds both scans: the upward scan never includes
a line strictly above such a heading below-to-above and the downward
scan never includes the heading or any line beyond it. -/
theorem headings_bound_search :
    ∀ (syn : Dialect) (lines : List String) (tag : String) (lineidx : ℕ) (lvl : ℚ) (j : ℕ),
      isHeader syn (lines.getD j "") = true →
      isEmptyLine (lines.getD j "") = false →
      isImg syn (lines.getD j "") = false →
      (j < lineidx → ∀ i ∈ searchUpMain syn lines tag lineidx lvl, j ≤ i) ∧
      (lineidx < j → ∀ i ∈ searchDownMain syn lines tag lineidx lvl, i < j) := by
  intro syn lines tag lineidx lvl j hj hje hji
  constructor
  · intro hlt i h
    rw [searchUpMain] at h
    rcases List.mem_cons.mp h with rfl | h'
    · omega
    · exact searchUpFromMain_heading_floor syn lines lvl j hj hje hji lineidx true hlt i h'
  · intro hlt i h
    rw [searchDownMain] at h
    exact searchDownFromMain_heading_ceil syn lines lvl j hj hje hji _ (lineidx + 1) true
      (by omega) i h

/-- Witness for C4's amended theorem at concrete documents in both
directions. -/
theorem headings_bound_search_witness :
    isHeader .zim ((prepLines "=== h ===\nx\n@t y").getD 0 "") = true ∧
    isHeader .zim ((prepLines "@t y\nx\n=== h ===").getD 2 "") = true ∧
    (0 : ℕ) ≤ 1 ∧ 1 < 2 :=
  ⟨by decide, by decide,
   (headings_bound_search .zim (prepLines "=== h ===\nx\n@t y") "t" 2 0 0 (by decide)
       (by decide) (by decide)).1 (by decide) 1 (by decide),
   (headings_bound_search .zim (prepLines "@t y\nx\n=== h ===") "t" 0 0 2 (by decide)
       (by decide) (by decide)).2 (by decide) 1 (by decide)⟩

/-- Width is additive over concatenation. -/
lemma wsWidth_append (l1 l2 : List Char) : wsWidth (l1 ++ l2) = wsWidth l1 + wsWidth l2 := by
  induction l1 with
  | nil => simp [wsWidth]
  | cons c r ih => simp [wsWidth, ih]; ring

/-- A run of plain spaces has width equal to its length. -/
lemma wsWidth_replicate_space (k : ℕ) : wsWidth (List.replicate k ' ') = k := by
  induction k with
  | zero => rfl
  | succ k ih => simp [List.replicate_succ, wsWidth, ih]; ring

/-- `takeWhile` passes over a prefix that wholly satisfies the predicate. -/
lemma takeWhile_all_append (p : Char → Bool) (l1 l2 : List Char) (h : l1.all p = true) :
    (l1 ++ l2).takeWhile p = l1 ++ l2.takeWhile p := by
  induction l1 with
  | nil => simp
  | cons c r ih =>
    simp only [List.all_cons, Bool.and_eq_true] at h
    simp [List.takeWhile_cons, h.1, ih h.2]

/-- Nothing at the head of `dropWhile p` still satisfies `p`. -/
lemma takeWhile_dropWhile_nil (p : Char → Bool) (l : List Char) :
    (l.dropWhile p).takeWhile p = [] := by
  induction l with
  | nil => rfl
  | cons c r ih =>
    by_cases hc : p c
    · simp [List.dropWhile_cons, hc, ih]
    · simp [List.dropWhile_cons, hc, List.takeWhile_cons]

/-- `dropWhile` discards a prefix that wholly satisfies the predicate. -/
lemma dropWhile_all_append (p : Char → Bool) (l1 l2 : List Char) (h : l1.all p = true) :
    (l1 ++ l2).dropWhile p = l2.dropWhile p := by
  induction l1 with
  | nil => simp
  | cons c r ih =>
    simp only [List.all_cons, Bool.and_eq_true] at h
    simp [List.dropWhile_cons, h.1, ih h.2]

/-- A run of spaces is whitespace. -/
lemma replicate_space_all_ws (k : ℕ) : (List.replicate k ' ').all isWsC = true := by
  simp [List.all_eq_true, isWsC]

/-- Stripping `m` units reduces the leading width by exactly `m`. -/
lemma lineWidth_stripW (m : ℕ) (l : String) : lineWidth (stripW m l) = lineWidth l - m := by
  unfold lineWidth stripW
  set w := wsWidth (l.data.takeWhile isWsC) with hw
  show wsWidth ((List.replicate (w - m) ' ' ++ l.data.dropWhile isWsC).takeWhile isWsC) = w - m
  rw [takeWhile_all_append _ _ _ (replicate_space_all_ws _), takeWhile_dropWhile_nil,
    List.append_nil, wsWidth_replicate_space]

/-- A whitespace-only line is classified blank. -/
lemma emptyLine_ws_only (r : List Char) (hr : r.all isWsC = true) : isEmptyLine ⟨r⟩ = true := by
  cases r with
  | nil => rfl
  | cons c rest =>
    unfold isEmptyLine
    have : (c :: rest).takeWhile isWsC = c :: rest := List.takeWhile_eq_self_iff.mpr (by
      intro x hx; exact (List.all_eq_true.mp hr x hx))
    simp [this]

/-- Whitespace followed by the line terminator is classified blank. -/
lemma emptyLine_ws_nl (r : List Char) (hr : r.all isWsC = true) :
    isEmptyLine ⟨r ++ ['\n']⟩ = true := by
  cases r with
  | nil => rfl
  | cons c rest =>
    unfold isEmptyLine
    have h1 : ((c :: rest) ++ ['\n']).takeWhile isWsC = c :: rest := by
      rw [takeWhile_all_append _ _ _ hr]
      simp [List.takeWhile_cons, isWsC]
    simp only [h1]
    have h2 : ((c :: rest) ++ ['\n']).drop (c :: rest).length = ['\n'] := by
      simp
    simp [h2]

/-- A line whose first non-whitespace character is not the terminator is
not blank. -/
lemma emptyLine_ws_other (r : List Char) (hr : r.all isWsC = true) (c : Char) (rest : List Char)
    (hc1 : isWsC c = false) (hc2 : c ≠ '\n') : isEmptyLine ⟨r ++ c :: rest⟩ = false := by
  unfold isEmptyLine
  have h1 : (r ++ c :: rest).takeWhile isWsC = r := by
    rw [takeWhile_all_append _ _ _ hr, List.takeWhile_cons, hc1]
    simp
  have h2 : (r ++ c :: rest).drop r.length = c :: rest := by
    simp
  have h3 : (r ++ c :: rest).getD r.length ' ' = c := by
    rw [List.getD_eq_getElem?_getD, List.getElem?_append_right (le_refl _)]
    simp
  have h4 : ¬(String.mk (r ++ c :: rest) = "\n") := by
    intro hcon
    have : r ++ c :: rest = ['\n'] := congrArg String.data hcon
    cases r with
    | nil => simp at this; exact hc2 this.1
    | cons x xs =>
      simp at this
  simp [h1, h2, h3, h4, hc2]
  intro h5
  rw [show (r ++ c :: rest)[r.length] = c from by
    rw [List.getElem_append_right (le_refl _)]
    simp]
  exact hc2

/-- The head surviving `dropWhile p` fails `p`. -/
lemma dropWhile_head_not (p : Char → Bool) :
    ∀ (l : List Char) (c : Char) (rest : List Char), l.dropWhile p = c :: rest → p c = false := by
  intro l
  induction l with
  | nil => intro c rest h; simp at h
  | cons x xs ih =>
    intro c rest h
    rw [List.dropWhile_cons] at h
    by_cases hx : p x
    · rw [if_pos hx] at h; exact ih c rest h
    · rw [if_neg hx] at h
      cases h
      simpa using hx

/-- Everything `takeWhile p` keeps satisfies `p`. -/
lemma takeWhile_all_self (p : Char → Bool) (l : List Char) : (l.takeWhile p).all p = true := by
  induction l with
  | nil => rfl
  | cons x xs ih =>
    rw [List.takeWhile_cons]
    by_cases hx : p x
    · simp [hx, ih]
    · simp [hx]

/-- Core of blankness preservation: replacing one leading whitespace run
by another does not change the blank classification of a line whose
only newline, if any, is final. -/
lemma isEmptyLine_strip_core (k : ℕ) (r body : List Char) (hr : r.all isWsC = true)
    (hbody : ∀ c rest, body = c :: rest → isWsC c = false)
    (hnl : ((r ++ body).dropLast.all fun c => c ≠ '\n') = true) :
    isEmptyLine ⟨List.replicate k ' ' ++ body⟩ = isEmptyLine ⟨r ++ body⟩ := by
  cases body with
  | nil =>
    rw [List.append_nil, List.append_nil, emptyLine_ws_only _ (replicate_space_all_ws _),
      emptyLine_ws_only _ hr]
  | cons c rest =>
    have hcws : isWsC c = false := hbody c rest rfl
    by_cases hc : c = '\n'
    · subst hc
      by_cases hrest : rest = []
      · subst hrest
        rw [show ('\n' :: ([] : List Char)) = ['\n'] from rfl]
        rw [emptyLine_ws_nl _ (replicate_space_all_ws _), emptyLine_ws_nl _ hr]
      · exfalso
        have hmem : '\n' ∈ (r ++ '\n' :: rest).dropLast := by
          rw [List.dropLast_append_cons, List.dropLast_cons_of_ne_nil hrest]
          simp
        have := List.all_eq_true.mp hnl '\n' hmem
        simp at this
    · rw [emptyLine_ws_other _ (replicate_space_all_ws _) c rest hcws hc,
        emptyLine_ws_other _ hr c rest hcws hc]

/-- Stripping leading whitespace preserves the blank classification of a
well-formed line. -/
lemma isEmptyLine_stripW (m : ℕ) (l : String)
    (hnl : (l.data.dropLast.all fun c => c ≠ '\n') = true) :
    isEmptyLine (stripW m l) = isEmptyLine l := by
  obtain ⟨cs⟩ := l
  have hsplit : cs.takeWhile isWsC ++ cs.dropWhile isWsC = cs :=
    List.takeWhile_append_dropWhile isWsC cs
  have hstrip : stripW m (String.mk cs) =
      String.mk (List.replicate (wsWidth (cs.takeWhile isWsC) - m) ' ' ++ cs.dropWhile isWsC) :=
    rfl
  rw [hstrip]
  conv_rhs =>
    rw [show String.mk cs = String.mk (cs.takeWhile isWsC ++ cs.dropWhile isWsC) from by
      rw [hsplit]]
  exact isEmptyLine_strip_core _ _ _ (takeWhile_all_self isWsC cs)
    (fun c rest h => dropWhile_head_not isWsC cs c rest h)
    (by rw [hsplit]; exact hnl)

/-- `minW` is `none` exactly on the empty list. -/
lemma minW_eq_none (l : List ℕ) : minW l = none ↔ l = [] := by
  cases l <;> simp [minW]

/-- `minW` commutes with a uniform truncated subtraction. -/
lemma minW_map_sub (m : ℕ) : ∀ xs : List ℕ, minW (xs.map (fun x => x - m)) = (minW xs).map (fun x => x - m) := by
  intro xs
  induction xs with
  | nil => rfl
  | cons x r ih =>
    cases h : minW r with
    | none =>
      have h2 : minW (r.map (fun x => x - m)) = none := by rw [ih, h]; rfl
      simp [minW, h, h2]
    | some k =>
      have h2 : minW (r.map (fun x => x - m)) = some (k - m) := by rw [ih, h]; rfl
      simp [minW, h, h2]
      exact Nat.sub_min_sub_right x k m

/-- Left-justifying drives the minimum non-blank leading width to 0,
provided the selection keeps a non-blank line. -/
lemma minNonBlankW_leftJustFn (ls : List String)
    (hnl : ∀ l ∈ ls, (l.data.dropLast.all fun c => c ≠ '\n') = true)
    (hnb : (leftJustFn ls).filter (fun l => !isEmptyLine l) ≠ []) :
    minNonBlankW (leftJustFn ls) = some 0 := by
  unfold leftJustFn at hnb ⊢
  cases hmin : minNonBlankW ls with
  | none =>
    rw [hmin] at hnb
    exfalso
    apply hnb
    unfold minNonBlankW at hmin
    have : (ls.filter (fun l => !isEmptyLine l)).map lineWidth = [] := (minW_eq_none _).mp hmin
    simpa using this
  | some m =>
    show minNonBlankW (List.map (stripW m) ls) = some 0
    unfold minNonBlankW at hmin ⊢
    have hfilter : (ls.map (stripW m)).filter (fun l => !isEmptyLine l) =
        (ls.filter (fun l => !isEmptyLine l)).map (stripW m) := by
      rw [List.filter_map]
      congr 1
      apply List.filter_congr
      intro x hx
      simp [Function.comp, isEmptyLine_stripW m x (hnl x hx)]
    rw [hfilter, List.map_map]
    have hwidths : (ls.filter (fun l => !isEmptyLine l)).map (lineWidth ∘ stripW m) =
        ((ls.filter (fun l => !isEmptyLine l)).map lineWidth).map (fun x => x - m) := by
      rw [List.map_map]
      apply List.map_congr_left
      intro x hx
      simp [Function.comp, lineWidth_stripW]
    rw [hwidths, minW_map_sub, hmin]
    simp

/-- The chunks produced by splitting on newlines contain no newline. -/
lemma splitNl_no_nl : ∀ (cs acc : List Char), (acc.all fun c => c ≠ '\n') = true →
    ∀ chunk ∈ splitNl cs acc, (chunk.all fun c => c ≠ '\n') = true := by
  intro cs
  induction cs with
  | nil =>
    intro acc hacc chunk hc
    simp [splitNl] at hc
    subst hc
    simpa using hacc
  | cons c r ih =>
    intro acc hacc chunk hc
    by_cases hcn : c = '\n'
    · subst hcn
      rw [show splitNl ('\n' :: r) acc = acc.reverse :: splitNl r [] from by
        rw [splitNl]; simp] at hc
      rcases List.mem_cons.mp hc with rfl | h2
      · simpa using hacc
      · exact ih [] rfl chunk h2
    · rw [show splitNl (c :: r) acc = splitNl r (c :: acc) from by
        rw [splitNl]; rw [if_neg hcn]] at hc
      exact ih (c :: acc) (by
        simp only [List.all_cons, Bool.and_eq_true]
        exact ⟨by simpa using hcn, hacc⟩) chunk hc

/-- Every Document line carries its only newline at the end. -/
lemma prepLines_mem_no_inner_nl (text : String) :
    ∀ l ∈ prepLines text, (l.data.dropLast.all fun c => c ≠ '\n') = true := by
  intro l hl
  unfold prepLines at hl
  rw [List.mem_map] at hl
  obtain ⟨chunk, hchunk, heq⟩ := hl
  rw [← heq]
  rw [show (String.mk (chunk ++ ['\n'])).data.dropLast = chunk from by
    show (chunk ++ ['\n']).dropLast = chunk
    exact List.dropLast_concat]
  exact splitNl_no_nl _ [] rfl chunk hchunk

/-- The same, through the `getD` access the pipeline uses. -/
lemma prepLines_no_inner_nl (text : String) (i : ℕ) :
    (((prepLines text).getD i "").data.dropLast.all fun c => c ≠ '\n') = true := by
  by_cases hi : i < (prepLines text).length
  · have hmem : (prepLines text).getD i "" ∈ prepLines text := by
      rw [List.getD_eq_getElem?_getD, List.getElem?_eq_getElem hi]
      exact List.getElem_mem hi
    exact prepLines_mem_no_inner_nl text _ hmem
  · rw [List.getD_eq_getElem?_getD, List.getElem?_eq_none (le_of_not_lt hi)]
    rfl

/-- C6 (amended): in the sojusnik variant every successful extraction is
left-justified: when the selected block retains a non-blank line, the
minimum leading-whitespace width (hence indentation level) over the
non-blank output lines is 0.  (`tagextract.py` performs no
re-indentation at all, which is what the original claim missed.) -/
theorem soj_output_left_justified :
    ∀ (text tag : String) (sel : List String),
      extractTagLinesSoj zimTP text tag = Except.ok sel →
      sel.filter (fun l => !isEmptyLine l) ≠ [] →
      minNonBlankW sel = some 0 := by
  intro text tag sel hok hnb
  cases hd : dictLookup (tagIndexSoj zimTP text) (normalizeTag zimTP tag) with
  | none =>
    simp only [extractTagLinesSoj, hd] at hok
    exact Except.noConfusion hok
  | some occs =>
    simp only [extractTagLinesSoj, hd, Except.ok.injEq] at hok
    rw [← hok] at hnb ⊢
    show minNonBlankW (leftJustFn _) = some 0
    apply minNonBlankW_leftJustFn
    · intro l hl
      rw [List.mem_map] at hl
      obtain ⟨i, -, heq⟩ := hl
      rw [← heq]
      exact prepLines_no_inner_nl text i
    · exact hnb

/-- Witness for C6's amended theorem at a concrete document. -/
theorem soj_output_left_justified_witness :
    extractTagLinesSoj zimTP "    @t x\n" "t" = Except.ok ["@t x\n", "\n"] ∧
    minNonBlankW ["@t x\n", "\n"] = some 0 :=
  ⟨by rfl,
   soj_output_left_justified "    @t x\n" "t" ["@t x\n", "\n"] (by rfl) (by decide)⟩

/-- C1 (amended): in the sojusnik variant a tag whose normalised form has
no occurrence yields a distinct no-output outcome rather than an
exception: `extractTag` prints the existing tag keys and returns `None`
(modelled as `Except.error` carrying exactly `tagdict.keys()`).
(`tagextract.py` instead raises `KeyError`, which is what the original
claim missed.) -/
theorem soj_missing_tag_reported :
    ∀ text tag : String,
      dictLookup (tagIndexSoj zimTP text) (normalizeTag zimTP tag) = none →
      extractTagSoj zimTP text tag =
        Except.error ((tagIndexSoj zimTP text).map (fun p => p.1)) := by
  intro text tag h
  unfold extractTagSoj
  simp only [extractTagLinesSoj, h]
  rfl

/-- Witness for C1's amended theorem at a concrete document. -/
theorem soj_missing_tag_reported_witness :
    dictLookup (tagIndexSoj zimTP "hello @a\n") (normalizeTag zimTP "b") = none ∧
    extractTagSoj zimTP "hello @a\n" "b" =
      Except.error ((tagIndexSoj zimTP "hello @a\n").map (fun p => p.1)) :=
  ⟨by decide, soj_missing_tag_reported "hello @a\n" "b" (by decide)⟩

/-- C7 (amended): in the sojusnik variant canonical tag keys carry the
sigil and a bare name is normalised by prepending `@`, so extracting
`name` and `@name` address the same occurrences and yield identical
results.  (`tagextract.py` has sigil-less keys and no normalisation,
which is what the original claim missed.) -/
theorem soj_sigil_normalized :
    ∀ (text name : String), zimTP.findTags name = [] → zimTP.findTags ("@" ++ name) ≠ [] →
      extractTagSoj zimTP text name = extractTagSoj zimTP text ("@" ++ name) := by
  intro text name h1 h2
  have hnorm : normalizeTag zimTP name = normalizeTag zimTP ("@" ++ name) := by
    unfold normalizeTag
    rw [if_pos h1, if_neg h2]
  unfold extractTagSoj extractTagLinesSoj
  rw [hnorm]

/-- Witness for C7's amended theorem at a concrete document. -/
theorem soj_sigil_normalized_witness :
    zimTP.findTags "proj" = [] ∧ zimTP.findTags ("@" ++ "proj") ≠ [] ∧
    extractTagSoj zimTP "a @proj b\n" "proj" = extractTagSoj zimTP "a @proj b\n" ("@" ++ "proj") :=
  ⟨by decide, by decide,
   soj_sigil_normalized "a @proj b\n" "proj" (by decide) (by decide)⟩


/-- The Setext alternative of the markdown heading regex needs two
newline positions, so it can never match a string whose only newline,
if any, is its final character — in particular never a single Document
line. -/
lemma setext_no_single_line (cs : List Char)
    (hnl : (cs.dropLast.all fun c => c ≠ '\n') = true) :
    setextMatchMd cs = false := by
  by_contra hne
  have htrue : setextMatchMd cs = true := by
    cases hx : setextMatchMd cs
    · exact absurd hx hne
    · rfl
  simp only [setextMatchMd, List.any_eq_true, Bool.and_eq_true, decide_eq_true_eq,
    List.mem_range, Bool.or_eq_true] at htrue
  obtain ⟨a, -, -, b, -, ⟨⟨-, hblt⟩, hbnl⟩, c2, -, ⟨⟨hc2ge, -⟩, -⟩, d, -,
    ⟨⟨hdge, -⟩, hdlt⟩, hdnl⟩ := htrue
  have hbd : b < d := by omega
  have hblen : b < cs.dropLast.length := by
    rw [List.length_dropLast]; omega
  have hbval : cs.getD b ' ' = cs.dropLast[b] := by
    rw [List.getElem_dropLast, List.getD_eq_getElem?_getD, List.getElem?_eq_getElem (by omega)]
    rfl
  have hmem := List.all_eq_true.mp hnl cs.dropLast[b] (List.getElem_mem hblen)
  rw [hbval] at hbnl
  simp only [List.getElem_dropLast] at hbnl
  simp at hmem
  exact hmem hbnl

/-- C9 (amended): per-line classification in the scans reduces the
markdown heading test to the ATX alternative alone — for any line whose
only newline, if any, is final, the Setext alternative never fires.
ATX headings (`#` runs with optional, not mandatory, whitespace before
the text) are recognised; Setext heading lines are not. -/
theorem isheader_md_per_line :
    ∀ s : String, (s.data.dropLast.all fun c => c ≠ '\n') = true →
      isHeader .markdown s = atxMatchMd s.data := by
  intro s h
  show (setextMatchMd s.data || atxMatchMd s.data) = atxMatchMd s.data
  rw [setext_no_single_line s.data h]
  simp

/-- Witness for C9's amended theorem: an ATX line, classified per line. -/
theorem isheader_md_per_line_witness :
    (("# Title\n" : String).data.dropLast.all fun c => c ≠ '\n') = true ∧
    isHeader .markdown "# Title\n" = atxMatchMd ("# Title\n" : String).data :=
  ⟨by decide, isheader_md_per_line "# Title\n" (by decide)⟩

end RatEval
